import Mathlib

/-!
# Verification of the TUI box-layout engine (week4 tui.cpp)

A shallow embedding of the terminal-UI composition engine: a tree of
elements (Text, Heading, Container) that report their rectangular size
via `dimensions` and draw themselves via `render`.  The embedding
follows the C++ source: `std::string` becomes `String` (content), the
output stream becomes an explicitly produced `List Char`, `size_t`
arithmetic is `Nat` (with the one wrap-sensitive subtraction in the
padding loop modelled separately by `padCount` with genuine mod-2^64
semantics), and `cout << ... << endl` appends characters and a final
newline character.
-/

/-- Dimensions, as in the source: width and height, both `size_t`. -/
structure Dimensions where
  width : Nat
  height : Nat
deriving DecidableEq, Repr

/-- The element tree.  `Text` and `Heading` are leaves holding a content
string; `Container` holds an ordered list of exclusively owned children.
(`Heading` derives from `Text` in the source and inherits its
`dimensions`; only `render` differs.) -/
inductive Element where
  | text (content : String) : Element
  | heading (content : String) : Element
  | container (children : List Element) : Element

mutual

/-- `Element::dimensions`.  For `Text`/`Heading` it is
`{text.size(), 1}`; for `Container` the loop accumulates
`max_width`/`sum_height` over the children and returns
`{max_width + 2, sum_height}`. -/
def dimensions : Element → Dimensions
  | .text s => ⟨s.length, 1⟩
  | .heading s => ⟨s.length, 1⟩
  | .container cs =>
    let acc := measureLoop 0 0 cs
    ⟨acc.1 + 2, acc.2⟩

/-- The `for (auto &child : children)` accumulation loop inside
`Container::dimensions`, with the two accumulator variables
`max_width` and `sum_height` made explicit. -/
def measureLoop (max_width sum_height : Nat) : List Element → Nat × Nat
  | [] => (max_width, sum_height)
  | c :: cs =>
    let d := dimensions c
    measureLoop (max max_width d.width) (sum_height + d.height) cs

end

/-- The bold escape sequence written by `Heading::render`. -/
def boldSeq : List Char := "\u001b[1m".data

/-- The reset escape sequence written by `Heading::render`. -/
def resetSeq : List Char := "\u001b[0m".data

mutual

/-- `Element::render`, with the output stream made explicit: the function
returns exactly the characters the call writes to `cout`, in order.
`Text` writes its content verbatim; `Heading` wraps it in the bold and
reset escape sequences; `Container` writes a border line
(a plus, `width - 2` dashes, a plus, a newline from `endl`), one row per
child, and a closing border line. -/
def render : Element → List Char
  | .text s => s.data
  | .heading s => boldSeq ++ s.data ++ resetSeq
  | .container cs =>
    let dims := dimensions (.container cs)
    let line := ('+' :: (List.replicate (dims.width - 2) '-' ++ ['+', '\n']))
    line ++ (renderRows dims.width cs ++ line)

/-- The per-child row loop inside `Container::render`: for each child, a
pipe, the child's own rendered output, `dims.width - 2 - child_dims.width`
spaces of right padding, a pipe, and the newline from `endl`. -/
def renderRows (w : Nat) : List Element → List Char
  | [] => []
  | c :: cs =>
    let cd := dimensions c
    ('|' :: (render c ++ (List.replicate (w - 2 - cd.width) ' ' ++ ['|', '\n'])))
      ++ renderRows w cs

end

/-- Measured width of an element. -/
def widthOf (e : Element) : Nat := (dimensions e).width

/-- Measured height of an element. -/
def heightOf (e : Element) : Nat := (dimensions e).height

/-- The maximum of the measured widths of a list of children (0 when
empty), the quantity the source loop accumulates in `max_width`. -/
def maxW (cs : List Element) : Nat := cs.foldr (fun c m => max (widthOf c) m) 0

/-- The sum of the measured heights of a list of children, the quantity
the source loop accumulates in `sum_height`. -/
def sumH (cs : List Element) : Nat := (cs.map heightOf).sum

/-- Joining a list of lines into a character stream, terminating each
line with the newline character that `endl` writes. -/
def unlines (ls : List (List Char)) : List Char :=
  (ls.map (fun l => l ++ ['\n'])).flatten

/-- Splitting a character stream at newline characters, so that
`splitNl out` lists the segments between line breaks (with a final
segment after the last break, empty when the stream ends in a break). -/
def splitNl : List Char → List (List Char)
  | [] => [[]]
  | c :: cs =>
    let r := splitNl cs
    if c = '\n' then [] :: r
    else
      match r with
      | [] => [[c]]
      | l :: ls => (c :: l) :: ls

/-- The horizontal border line of a `Container` of width `w` (without
the trailing newline): a plus, `w - 2` dashes, a plus. -/
def borderOf (w : Nat) : List Char := '+' :: (List.replicate (w - 2) '-' ++ ['+'])

/-- The content row a `Container` of width `w` emits for one child
(without the trailing newline): a pipe, the child's rendered output,
`w - 2 - widthOf c` spaces of padding, a pipe. -/
def rowOf (w : Nat) (c : Element) : List Char :=
  '|' :: (render c ++ (List.replicate (w - 2 - widthOf c) ' ' ++ ['|']))

/-- Removing the two styling control sequences (bold and reset) from a
character stream: the visible characters of a rendered line. -/
def stripStyles : List Char → List Char
  | [] => []
  | c :: cs =>
    if c = '\u001b' ∧ cs.take 3 = ['[', '1', 'm'] then stripStyles (cs.drop 3)
    else if c = '\u001b' ∧ cs.take 3 = ['[', '0', 'm'] then stripStyles (cs.drop 3)
    else c :: stripStyles cs
termination_by l => l.length
decreasing_by
  all_goals simp
  all_goals omega

/-- A leaf element (`Text` or `Heading`) whose content contains no
newline character, so that its rendered output stays on one row. -/
def isLeafNoNl : Element → Bool
  | .text s => s.data.all (fun c => !(c = '\n'))
  | .heading s => s.data.all (fun c => !(c = '\n'))
  | .container _ => false

/-- A leaf element whose content contains neither a newline nor the
escape character, so that its rendered row is one line whose visible
characters are exactly the content (plus frame and padding). -/
def isLeafClean : Element → Bool
  | .text s => s.data.all (fun c => !(c = '\n') && !(c = '\u001b'))
  | .heading s => s.data.all (fun c => !(c = '\n') && !(c = '\u001b'))
  | .container _ => false

/-- 2^64, the modulus of `size_t` arithmetic on the target platform. -/
def two64 : Nat := 18446744073709551616

/-- Wrapping `size_t` subtraction: `(a - b) mod 2^64` for operands
already reduced mod 2^64. -/
def sub64 (a b : Nat) : Nat := (a % two64 + (two64 - b % two64)) % two64

/-- The loop bound `dims.width - 2 - child_dims.width` of the padding
loop in `Container::render`, computed with the wrapping `size_t`
subtraction of the source. -/
def padCount (w child_w : Nat) : Nat := sub64 (sub64 w 2) child_w

mutual

/-- `Element::dimensions` with the output stream threaded through
explicitly, to express that measurement writes nothing: the translation
of the source bodies, which contain no output statement, leaves the
stream argument untouched on every path. -/
def dimensionsS : Element → List Char → Dimensions × List Char
  | .text s, out => (⟨s.length, 1⟩, out)
  | .heading s, out => (⟨s.length, 1⟩, out)
  | .container cs, out =>
    let r := measureLoopS 0 0 cs out
    (⟨r.1.1 + 2, r.1.2⟩, r.2)

/-- The accumulation loop of `Container::dimensions` with the output
stream threaded through explicitly. -/
def measureLoopS (max_width sum_height : Nat) :
    List Element → List Char → (Nat × Nat) × List Char
  | [], out => ((max_width, sum_height), out)
  | c :: cs, out =>
    let r := dimensionsS c out
    measureLoopS (max max_width r.1.width) (sum_height + r.1.height) cs r.2

end

/-- The `Container` constructor
`Container(vector<unique_ptr<Element>> &children) : children(move(children))`
with the caller's vector passed as explicit state: move construction of
a `std::vector` transfers the buffer to the new container and leaves the
source vector empty.  The result pairs the constructed element with the
state of the caller's vector after the call. -/
def containerOfMoved (children : List Element) : Element × List Element :=
  (Element.container children, [])

/-- The demo tree built in `main`: a `Heading` with content
"Hello world" and a `Text` with content
"This is a long string of text", in one `Container`. -/
def demoTree : Element :=
  .container [.heading "Hello world", .text "This is a long string of text"]

theorem measureLoop_eq (cs : List Element) :
    ∀ a b : Nat, measureLoop a b cs = (max a (maxW cs), b + sumH cs) := by
  induction cs with
  | nil => intro a b; simp [measureLoop, maxW, sumH]
  | cons c cs ih =>
    intro a b
    rw [measureLoop, ih]
    simp [maxW, sumH, widthOf, heightOf, Nat.max_assoc, Nat.add_assoc]

theorem dimensions_container (cs : List Element) :
    dimensions (.container cs) = ⟨maxW cs + 2, sumH cs⟩ := by
  rw [dimensions, measureLoop_eq]
  simp

theorem unlines_cons (l : List Char) (ls : List (List Char)) :
    unlines (l :: ls) = (l ++ ['\n']) ++ unlines ls := by
  simp [unlines]

theorem unlines_append (ls ms : List (List Char)) :
    unlines (ls ++ ms) = unlines ls ++ unlines ms := by
  simp [unlines]

theorem renderRows_eq_unlines (w : Nat) (cs : List Element) :
    renderRows w cs = unlines (cs.map (rowOf w)) := by
  induction cs with
  | nil => simp [renderRows, unlines]
  | cons c cs ih =>
    rw [renderRows, ih]
    simp [rowOf, unlines_cons, widthOf]

/-- `Container::render` produces exactly the border line, one row per
child, and the border line again, each line terminated by a newline. -/
theorem render_container_eq (cs : List Element) :
    render (.container cs) =
      unlines (borderOf (dimensions (.container cs)).width ::
        (cs.map (rowOf (dimensions (.container cs)).width) ++
          [borderOf (dimensions (.container cs)).width])) := by
  rw [render, renderRows_eq_unlines]
  simp [borderOf, unlines_cons, unlines_append, unlines]

theorem splitNl_ne_nil (l : List Char) : splitNl l ≠ [] := by
  cases l with
  | nil => simp [splitNl]
  | cons c cs =>
    rw [splitNl]
    by_cases h : c = '\n'
    · simp [h]
    · simp only [if_neg h]
      cases splitNl cs <;> simp

theorem splitNl_line (l rest : List Char) (h : '\n' ∉ l) :
    splitNl (l ++ '\n' :: rest) = l :: splitNl rest := by
  induction l with
  | nil => simp [splitNl]
  | cons c cl ih =>
    have hc : c ≠ '\n' := by intro hc; exact h (by simp [hc])
    have hcl : '\n' ∉ cl := by intro hm; exact h (by simp [hm])
    rw [List.cons_append, splitNl]
    simp only [if_neg hc, ih hcl]

/-- Splitting the stream `unlines ls` recovers the lines `ls` (plus the
empty segment after the final newline), provided no line contains an
embedded newline. -/
theorem splitNl_unlines (ls : List (List Char)) (h : ∀ l ∈ ls, '\n' ∉ l) :
    splitNl (unlines ls) = ls ++ [[]] := by
  induction ls with
  | nil => simp [unlines, splitNl]
  | cons l ls ih =>
    rw [unlines_cons, List.append_assoc, List.singleton_append,
      splitNl_line l _ (h l (by simp)), ih (fun m hm => h m (by simp [hm]))]
    simp

theorem stripStyles_cons (c : Char) (cs : List Char) (h : c ≠ '\u001b') :
    stripStyles (c :: cs) = c :: stripStyles cs := by
  rw [stripStyles, if_neg (by simp [h]), if_neg (by simp [h])]

theorem stripStyles_bold (t : List Char) :
    stripStyles (boldSeq ++ t) = stripStyles t := by
  show stripStyles ('\u001b' :: ('[' :: '1' :: 'm' :: t)) = stripStyles t
  rw [stripStyles, if_pos (by simp)]
  simp

theorem stripStyles_reset (t : List Char) :
    stripStyles (resetSeq ++ t) = stripStyles t := by
  show stripStyles ('\u001b' :: ('[' :: '0' :: 'm' :: t)) = stripStyles t
  rw [stripStyles, if_neg (by simp), if_pos (by simp)]
  simp

theorem stripStyles_append_of_noesc (s t : List Char)
    (h : ∀ c ∈ s, c ≠ '\u001b') :
    stripStyles (s ++ t) = s ++ stripStyles t := by
  induction s with
  | nil => simp
  | cons c s ih =>
    rw [List.cons_append, stripStyles_cons c _ (h c (by simp)),
      ih (fun d hd => h d (by simp [hd]))]
    rfl

theorem stripStyles_of_noesc (s : List Char) (h : ∀ c ∈ s, c ≠ '\u001b') :
    stripStyles s = s := by
  have h2 := stripStyles_append_of_noesc s [] h
  simpa [stripStyles] using h2

theorem maxW_cons (c : Element) (cs : List Element) :
    maxW (c :: cs) = max (widthOf c) (maxW cs) := by
  simp [maxW]

theorem sumH_cons (c : Element) (cs : List Element) :
    sumH (c :: cs) = heightOf c + sumH cs := by
  simp [sumH]

/-- Every child measures at most the accumulated maximum width. -/
theorem widthOf_le_maxW (cs : List Element) (c : Element) (h : c ∈ cs) :
    widthOf c ≤ maxW cs := by
  induction cs with
  | nil => cases h
  | cons d ds ih =>
    rw [maxW_cons]
    rcases List.mem_cons.mp h with h1 | h2
    · rw [h1]; exact Nat.le_max_left _ _
    · exact le_trans (ih h2) (Nat.le_max_right _ _)

/-- The accumulated maximum width is attained by some child when the
child list is nonempty. -/
theorem maxW_attained (cs : List Element) (h : cs ≠ []) :
    ∃ c ∈ cs, widthOf c = maxW cs := by
  induction cs with
  | nil => exact absurd rfl h
  | cons d ds ih =>
    by_cases hle : maxW ds ≤ widthOf d
    · exact ⟨d, by simp, by rw [maxW_cons]; omega⟩
    · have hne : ds ≠ [] := by
        intro he
        rw [he] at hle
        simp [maxW] at hle
      obtain ⟨c, hc, hcw⟩ := ih hne
      exact ⟨c, by simp [hc], by rw [maxW_cons, hcw]; omega⟩

theorem isLeafNoNl_of_clean (c : Element) (h : isLeafClean c = true) :
    isLeafNoNl c = true := by
  cases c <;> simp_all [isLeafClean, isLeafNoNl, List.all_eq_true]

theorem heightOf_of_noNl (c : Element) (h : isLeafNoNl c = true) :
    heightOf c = 1 := by
  cases c <;> simp_all [isLeafNoNl, heightOf, dimensions]

/-- All children of unit height: the aggregate height is the child count. -/
theorem sumH_of_noNl (cs : List Element) (h : ∀ c ∈ cs, isLeafNoNl c = true) :
    sumH cs = cs.length := by
  induction cs with
  | nil => simp [sumH]
  | cons c cs ih =>
    rw [sumH_cons, heightOf_of_noNl c (h c (by simp)),
      ih (fun d hd => h d (by simp [hd]))]
    simp [Nat.add_comm]

theorem nl_not_mem_render_leaf (c : Element) (h : isLeafNoNl c = true) :
    '\n' ∉ render c := by
  cases c with
  | text s =>
    simp only [isLeafNoNl, List.all_eq_true] at h
    intro hm
    have := h '\n' (by simpa [render] using hm)
    simp at this
  | heading s =>
    simp only [isLeafNoNl, List.all_eq_true] at h
    intro hm
    rw [render] at hm
    rcases List.mem_append.mp hm with hm1 | hm2
    · rcases List.mem_append.mp hm1 with hb | hs
      · revert hb; decide
      · have := h '\n' hs
        simp at this
    · revert hm2; decide
  | container cs => simp [isLeafNoNl] at h

theorem nl_not_mem_borderOf (w : Nat) : '\n' ∉ borderOf w := by
  intro hm
  simp only [borderOf, List.mem_cons, List.mem_append, List.mem_replicate] at hm
  rcases hm with h1 | ⟨h2, h3⟩ | h4 <;> simp_all

theorem nl_not_mem_rowOf (w : Nat) (c : Element) (h : isLeafNoNl c = true) :
    '\n' ∉ rowOf w c := by
  intro hm
  simp only [rowOf, List.mem_cons, List.mem_append, List.mem_replicate] at hm
  rcases hm with h1 | hr | ⟨h2, h3⟩ | h4
  · simp at h1
  · exact nl_not_mem_render_leaf c h hr
  · simp at h3
  · simp at h4

theorem esc_not_mem_render_text (s : String)
    (h : ∀ c ∈ s.data, c ≠ '\u001b') : ∀ c ∈ render (.text s), c ≠ '\u001b' := by
  simpa [render] using h

theorem stripStyles_rowOf (w : Nat) (c : Element) (h : isLeafClean c = true) :
    (stripStyles (rowOf w c)).length = 2 + widthOf c + (w - 2 - widthOf c) := by
  cases c with
  | text s =>
    simp only [isLeafClean, List.all_eq_true] at h
    have hesc : ∀ d ∈ rowOf w (.text s), d ≠ '\u001b' := by
      intro d hd
      simp only [rowOf, render, List.mem_cons, List.mem_append,
        List.mem_replicate, List.mem_singleton, List.not_mem_nil,
        or_false] at hd
      rcases hd with h1 | h2 | ⟨h3, h4⟩ | h5
      · simp [h1]
      · have := h d h2
        simp_all
      · simp [h4]
      · simp [h5]
    rw [stripStyles_of_noesc _ hesc]
    simp [rowOf, render, widthOf, dimensions]
    omega
  | heading s =>
    simp only [isLeafClean, List.all_eq_true] at h
    have hs : ∀ d ∈ s.data, d ≠ '\u001b' := by
      intro d hd
      have := h d hd
      simp_all
    have hpipe : ('|' : Char) ≠ '\u001b' := by decide
    have htail : ∀ d ∈ (List.replicate (w - 2 - widthOf (Element.heading s)) ' '
        ++ ['|']), d ≠ '\u001b' := by
      intro d hd
      rcases List.mem_append.mp hd with h1 | h2
      · rw [List.mem_replicate] at h1
        simp [h1.2]
      · simp_all
    calc (stripStyles (rowOf w (.heading s))).length
        = ('|' :: (s.data ++ (List.replicate (w - 2 - widthOf (Element.heading s)) ' '
            ++ ['|']))).length := by
          rw [rowOf, render]
          rw [show (boldSeq ++ s.data ++ resetSeq) ++
              (List.replicate (w - 2 - widthOf (Element.heading s)) ' ' ++ ['|']) =
              boldSeq ++ (s.data ++ (resetSeq ++
                (List.replicate (w - 2 - widthOf (Element.heading s)) ' ' ++ ['|'])))
            from by simp]
          rw [stripStyles_cons _ _ hpipe, stripStyles_bold,
            stripStyles_append_of_noesc _ _ hs, stripStyles_reset,
            stripStyles_of_noesc _ htail]
      _ = 2 + widthOf (.heading s) + (w - 2 - widthOf (.heading s)) := by
          simp [widthOf, dimensions]
          omega
  | container cs => simp [isLeafClean] at h

/-- On operands that fit in `size_t` and do not underflow, the wrapping
subtraction agrees with mathematical subtraction. -/
theorem sub64_eq_sub (a b : Nat) (ha : a < two64) (hb : b ≤ a) :
    sub64 a b = a - b := by
  rw [sub64, two64] at *
  omega

mutual

theorem dimensionsS_eq : ∀ (e : Element) (out : List Char),
    dimensionsS e out = (dimensions e, out)
  | .text s, out => rfl
  | .heading s, out => rfl
  | .container cs, out => by
    rw [dimensionsS, measureLoopS_eq 0 0 cs out, dimensions]

theorem measureLoopS_eq : ∀ (a b : Nat) (cs : List Element) (out : List Char),
    measureLoopS a b cs out = (measureLoop a b cs, out)
  | a, b, [], out => rfl
  | a, b, c :: cs, out => by
    rw [measureLoopS, dimensionsS_eq c out, measureLoop]
    exact measureLoopS_eq _ _ cs out

end

theorem borderOf_noesc (w : Nat) : ∀ c ∈ borderOf w, c ≠ '\u001b' := by
  intro c hc
  simp only [borderOf, List.mem_cons, List.mem_append, List.mem_replicate,
    List.mem_singleton, List.not_mem_nil, or_false] at hc
  rcases hc with h1 | ⟨h2, h3⟩ | h4 <;> simp_all

theorem stripStyles_borderOf_length (w : Nat) (hw : 2 ≤ w) :
    (stripStyles (borderOf w)).length = w := by
  rw [stripStyles_of_noesc _ (borderOf_noesc w), borderOf]
  simp
  omega

theorem rowOf_getLast (w : Nat) (c : Element) :
    (rowOf w c).getLast? = some '|' := by
  rw [show rowOf w c =
      ('|' :: (render c ++ List.replicate (w - 2 - widthOf c) ' ')) ++ ['|']
    from by simp [rowOf]]
  exact List.getLast?_concat _

/-- The emitted lines of `Container::render` (the segments before each
newline of the output stream) are exactly a border line, `rowOf` for
each child in order, and a border line, provided no line embeds a
newline of its own. -/
theorem splitNl_render_container (cs : List Element)
    (h : ∀ c ∈ cs, isLeafNoNl c = true) :
    (splitNl (render (Element.container cs))).dropLast =
      borderOf (dimensions (Element.container cs)).width ::
        (cs.map (rowOf (dimensions (Element.container cs)).width) ++
          [borderOf (dimensions (Element.container cs)).width]) := by
  have hnl : ∀ l ∈ (borderOf (dimensions (Element.container cs)).width ::
      (cs.map (rowOf (dimensions (Element.container cs)).width) ++
        [borderOf (dimensions (Element.container cs)).width])), '\n' ∉ l := by
    intro l hl
    rcases List.mem_cons.mp hl with h1 | h2
    · rw [h1]; exact nl_not_mem_borderOf _
    · rcases List.mem_append.mp h2 with h3 | h4
      · obtain ⟨c, hc, rfl⟩ := List.mem_map.mp h3
        exact nl_not_mem_rowOf _ c (h c hc)
      · rw [List.mem_singleton.mp h4]; exact nl_not_mem_borderOf _
  rw [render_container_eq, splitNl_unlines _ hnl, List.dropLast_concat]

/-- C1: for every Container, measure() returns width equal to the
maximum of the children's measured widths plus 2 (so the empty Container
measures {width 2, height 0}) and height equal to the sum of the
children's measured heights; the maximum is attained by a child when one
exists, and every child — in particular a nested Container with its own
+2 already included in its measured width — keeps the outer width at
least its own full width plus 2. -/
theorem container_measure_spec (cs : List Element) :
    (dimensions (Element.container cs)).width = maxW cs + 2 ∧
    (dimensions (Element.container cs)).height = sumH cs ∧
    (∀ c ∈ cs, widthOf c ≤ maxW cs) ∧
    (cs ≠ [] → ∃ c ∈ cs, widthOf c = maxW cs) ∧
    dimensions (Element.container []) = ⟨2, 0⟩ ∧
    (∀ c ∈ cs, widthOf c + 2 ≤ (dimensions (Element.container cs)).width) := by
  refine ⟨by rw [dimensions_container], by rw [dimensions_container],
    fun c hc => widthOf_le_maxW cs c hc, maxW_attained cs, by decide, ?_⟩
  intro c hc
  rw [dimensions_container]
  have := widthOf_le_maxW cs c hc
  show widthOf c + 2 ≤ maxW cs + 2
  omega

/-- Witness for C1 at a concrete tree: a Container holding an empty
nested Container (measured width 2) and a Text of length 3 measures
width 5 = max(2, 3) + 2 and height 1 = 0 + 1, the nested Container's
full bordered width fits inside the outer interior, and the maximum is
attained. -/
theorem container_measure_spec_witness :
    (dimensions (Element.container [Element.container [],
      Element.text "abc"])).width = 5 ∧
    (dimensions (Element.container [Element.container [],
      Element.text "abc"])).height = 1 ∧
    widthOf (Element.container []) + 2 ≤
      (dimensions (Element.container [Element.container [],
        Element.text "abc"])).width ∧
    ∃ c ∈ [Element.container [], Element.text "abc"],
      widthOf c = maxW [Element.container [], Element.text "abc"] := by
  have h := container_measure_spec [Element.container [], Element.text "abc"]
  exact ⟨by decide, by decide,
    h.2.2.2.2.2 _ (List.mem_cons_self _ _),
    h.2.2.2.1 (by simp)⟩

/-- C6: for every Text or Heading element whose content string has
length L, measure() returns width L and height 1. -/
theorem leaf_measure_spec (s : String) :
    dimensions (Element.text s) = ⟨s.length, 1⟩ ∧
    dimensions (Element.heading s) = ⟨s.length, 1⟩ :=
  ⟨rfl, rfl⟩

/-- C7: Text renders its content to the output verbatim — the emitted
characters are exactly the content, so nothing (in particular no
newline) is appended; Heading renders the bold control sequence, the
content, and the reset control sequence, whose final character is the
letter m rather than a newline, and the styling leaves the measured
width unchanged. -/
theorem leaf_render_spec (s : String) :
    render (Element.text s) = s.data ∧
    render (Element.heading s) = boldSeq ++ (s.data ++ resetSeq) ∧
    (render (Element.heading s)).getLast? = some 'm' ∧
    (dimensions (Element.heading s)).width = s.length := by
  refine ⟨rfl, by simp [render], ?_, rfl⟩
  rw [show render (Element.heading s) =
      (boldSeq ++ s.data ++ ['\u001b', '[', '0']) ++ ['m'] from by
    simp [render, resetSeq]]
  exact List.getLast?_concat _

/-- C8: measure() has no side effects — threading the output stream
through the measurement code returns it unchanged — and is idempotent:
a second call on the unchanged tree returns the identical Dimensions
value, namely `dimensions e`. -/
theorem measure_pure_idempotent (e : Element) (out : List Char) :
    (dimensionsS e out).2 = out ∧
    (dimensionsS e ((dimensionsS e out).2)).1 = (dimensionsS e out).1 ∧
    (dimensionsS e out).1 = dimensions e := by
  simp [dimensionsS_eq]

/-- C10: constructing a Container from a child sequence consumes the
caller's sequence — after the move the source vector is empty — and the
Container holds exactly the original children in their original order. -/
theorem container_ctor_moves (cs : List Element) :
    (containerOfMoved cs).2 = [] ∧
    (containerOfMoved cs).1 = Element.container cs :=
  ⟨rfl, rfl⟩

/-- C2 counterexample: the claim fails for a Container whose child is
itself a Container.  A Container holding one empty nested Container
measures height 0, so the claim predicts 0 + 2 = 2 emitted lines, but
the output stream carries 5 newline-terminated lines: the nested child
renders its own two border lines inside the single row the outer loop
frames. -/
theorem render_lines_nested_counterexample :
    (render (Element.container [Element.container []])).count '\n' = 5 ∧
    (dimensions (Element.container [Element.container []])).height + 2 = 2 := by
  constructor <;> decide

/-- C2 amended: for every Container whose children are all leaf elements
whose content contains neither a newline nor the escape character,
render emits exactly measure().height + 2 newline-terminated lines, and
every emitted line has exactly measure().width characters once the
styling control sequences are stripped. -/
theorem render_lines_spec (cs : List Element)
    (h : ∀ c ∈ cs, isLeafClean c = true) :
    ((splitNl (render (Element.container cs))).dropLast).length
      = (dimensions (Element.container cs)).height + 2 ∧
    ∀ l ∈ (splitNl (render (Element.container cs))).dropLast,
      (stripStyles l).length = (dimensions (Element.container cs)).width := by
  have hW : (dimensions (Element.container cs)).width = maxW cs + 2 := by
    rw [dimensions_container]
  have hH : (dimensions (Element.container cs)).height = sumH cs := by
    rw [dimensions_container]
  have hsplit := splitNl_render_container cs
    (fun c hc => isLeafNoNl_of_clean c (h c hc))
  constructor
  · rw [hsplit, hH, sumH_of_noNl cs (fun c hc => isLeafNoNl_of_clean c (h c hc))]
    simp
  · intro l hl
    rw [hsplit] at hl
    rcases List.mem_cons.mp hl with h1 | h2
    · rw [h1, stripStyles_borderOf_length _ (by omega)]
    · rcases List.mem_append.mp h2 with h3 | h4
      · obtain ⟨c, hc, rfl⟩ := List.mem_map.mp h3
        rw [stripStyles_rowOf _ c (h c hc)]
        have hcw := widthOf_le_maxW cs c hc
        omega
      · rw [List.mem_singleton.mp h4, stripStyles_borderOf_length _ (by omega)]

/-- Witness for C2 at a concrete tree: a Container holding a Heading of
clean content of length 2 and a Text of clean content of length 3 emits
2 + 2 = 4 lines, each of visible width 5. -/
theorem render_lines_spec_witness :
    (∀ c ∈ [Element.heading "Hi", Element.text "abc"], isLeafClean c = true) ∧
    ((splitNl (render (Element.container
        [Element.heading "Hi", Element.text "abc"]))).dropLast).length
      = (dimensions (Element.container
          [Element.heading "Hi", Element.text "abc"])).height + 2 :=
  ⟨by decide, (render_lines_spec _ (by decide)).1⟩

/-- C3 counterexample: the claim fails for a leaf child whose content
embeds a newline.  Rendering Container [Text "a\nb"] emits four lines,
and the second emitted line is pipe-a, a content row whose last
character is the letter a rather than a pipe. -/
theorem render_rows_newline_counterexample :
    (splitNl (render (Element.container [Element.text "a\nb"]))).dropLast =
      [['+', '-', '-', '-', '+'], ['|', 'a'], ['b', '|'],
       ['+', '-', '-', '-', '+']] ∧
    (['|', 'a'].getLast? = some 'a' ∧ ('a' : Char) ≠ '|') := by
  refine ⟨by decide, rfl, by decide⟩

/-- C3 amended: for every Container whose children are all leaves with
newline-free content, the emitted lines are a border row, one content
row per child, and a border row; each border row starts with a plus,
ends with a plus and is otherwise only dashes, and each content row
starts and ends with a pipe. -/
theorem render_rows_framing (cs : List Element)
    (h : ∀ c ∈ cs, isLeafNoNl c = true) :
    ∃ b rows,
      (splitNl (render (Element.container cs))).dropLast = b :: (rows ++ [b]) ∧
      b = '+' :: (List.replicate ((dimensions (Element.container cs)).width - 2)
        '-' ++ ['+']) ∧
      ∀ r ∈ rows, r.head? = some '|' ∧ r.getLast? = some '|' := by
  refine ⟨borderOf (dimensions (Element.container cs)).width,
    cs.map (rowOf (dimensions (Element.container cs)).width),
    splitNl_render_container cs h, rfl, ?_⟩
  intro r hr
  obtain ⟨c, hc, rfl⟩ := List.mem_map.mp hr
  exact ⟨rfl, rowOf_getLast _ c⟩

/-- Witness for C3 at a concrete tree: one Text child with newline-free
content. -/
theorem render_rows_framing_witness :
    (∀ c ∈ [Element.text "hi"], isLeafNoNl c = true) ∧
    ∃ b rows,
      (splitNl (render (Element.container [Element.text "hi"]))).dropLast
        = b :: (rows ++ [b]) ∧
      b = '+' :: (List.replicate
        ((dimensions (Element.container [Element.text "hi"])).width - 2)
        '-' ++ ['+']) ∧
      ∀ r ∈ rows, r.head? = some '|' ∧ r.getLast? = some '|' :=
  ⟨by decide, render_rows_framing _ (by decide)⟩

/-- C4 counterexample: the padding computation in render is not guarded.
For a hypothetical child of width 1 inside a container of width 2 (so
the child is wider than the 0 interior columns), the size_t loop bound
dims.width - 2 - child_dims.width wraps to 2^64 - 1 instead of being
clamped to zero, and no error path exists in the code. -/
theorem padCount_unguarded_wraps :
    padCount 2 1 = 18446744073709551615 ∧ padCount 2 1 ≠ 0 := by
  constructor <;> decide

/-- C4 amended: the padding subtraction is unguarded — a child wider
than the interior would make it wrap, not clamp or abort — but the
condition is unreachable: during Container rendering every child's
measured width plus 2 is at most the container's measured width, so the
subtraction never underflows. -/
theorem pad_underflow_unreachable (cs : List Element) (c : Element)
    (h : c ∈ cs) :
    widthOf c + 2 ≤ (dimensions (Element.container cs)).width := by
  rw [dimensions_container]
  have := widthOf_le_maxW cs c h
  show widthOf c + 2 ≤ maxW cs + 2
  omega

/-- Witness for C4 at a concrete tree. -/
theorem pad_underflow_unreachable_witness :
    widthOf (Element.text "abc") + 2 ≤
      (dimensions (Element.container [Element.text "abc"])).width :=
  pad_underflow_unreachable [Element.text "abc"] (Element.text "abc")
    (List.mem_cons_self _ _)

/-- C5 counterexample: the content "This is a long string of text" has
29 characters, not 30, so the demo container of main measures
{width 31, height 2}, not {width 32, height 2} as claimed. -/
theorem demo_measure_counterexample :
    "This is a long string of text".length = 29 ∧
    dimensions demoTree = ⟨31, 2⟩ ∧
    (⟨31, 2⟩ : Dimensions) ≠ ⟨32, 2⟩ := by
  refine ⟨by decide, by decide, by decide⟩

/-- C5 amended: the demo container measures {width 31, height 2}, and
render produces exactly 4 newline-terminated lines: a 31-wide border of
pluses and dashes, the heading row with the bold and reset sequences
around "Hello world" and 18 spaces of padding, the text row
"This is a long string of text" with 0 spaces of padding, and a closing
31-wide border. -/
theorem demo_render_spec :
    dimensions demoTree = ⟨31, 2⟩ ∧
    render demoTree = unlines
      [borderOf 31,
       '|' :: (boldSeq ++ ("Hello world".data ++ resetSeq) ++
         (List.replicate 18 ' ' ++ ['|'])),
       '|' :: ("This is a long string of text".data ++
         (List.replicate 0 ' ' ++ ['|'])),
       borderOf 31] ∧
    ((splitNl (render demoTree)).dropLast).length = 4 := by
  refine ⟨by decide, by decide, by decide⟩

/-- C9: for every Container, every child's measured width is at most the
Container's measured width minus 2; consequently the padding count of
render — the size_t expression dims.width - 2 - child_dims.width — never
wraps although it is unguarded: whenever the container width fits in
size_t it equals the exact difference, and content plus padding fill the
interior exactly. -/
theorem padding_nonneg_no_wrap (cs : List Element) (c : Element) (h : c ∈ cs)
    (hfit : (dimensions (Element.container cs)).width < two64) :
    widthOf c ≤ (dimensions (Element.container cs)).width - 2 ∧
    padCount (dimensions (Element.container cs)).width (widthOf c)
      = (dimensions (Element.container cs)).width - 2 - widthOf c ∧
    widthOf c +
        padCount (dimensions (Element.container cs)).width (widthOf c)
      = (dimensions (Element.container cs)).width - 2 := by
  have hc := widthOf_le_maxW cs c h
  rw [dimensions_container] at *
  simp only at *
  have h1 : sub64 (maxW cs + 2) 2 = maxW cs := by
    rw [sub64_eq_sub _ _ hfit (by omega)]
    omega
  have h2 : padCount (maxW cs + 2) (widthOf c) = maxW cs - widthOf c := by
    rw [padCount, h1, sub64_eq_sub _ _ (by omega) hc]
  exact ⟨by omega, by rw [h2]; omega, by rw [h2]; omega⟩

/-- Witness for C9 at a concrete tree: the second child (width 1) of a
container of width 6 receives padding 6 - 2 - 1 = 3, computed without
wrapping. -/
theorem padding_nonneg_no_wrap_witness :
    widthOf (Element.text "a") ≤
      (dimensions (Element.container
        [Element.text "abcd", Element.text "a"])).width - 2 ∧
    padCount (dimensions (Element.container
        [Element.text "abcd", Element.text "a"])).width
      (widthOf (Element.text "a")) = 3 := by
  have h := padding_nonneg_no_wrap [Element.text "abcd", Element.text "a"]
    (Element.text "a") (List.mem_cons_of_mem _ (List.mem_cons_self _ _))
    (by decide)
  exact ⟨h.1, by rw [h.2.1]; decide⟩
